import Mathlib

/-!
Shallow embedding of the pdebc parallel Differential Evolution engine
(ThreadsDESolver.hpp / ThreadsDE.hpp) and verification of the frozen
spec claims.

Modelling conventions:
* Candidates are functions `Fin D → P`; a subpopulation is `Fin n → Fin D → P`
  with a parallel error array `Fin n → E`.
* Each random function object of the source is a stream `ℕ → X` plus a
  counter recording how many draws were consumed.
* The rejection-sampling loops of `mutation` are given explicit fuel and
  return `Option`, modelling possible divergence.
* Probability draws (doubles in `[0,1]` in the source) are modelled as `ℚ`.
-/

/-- The configuration and callbacks held by BaseDE in the source.
The nullary stateful generator callback is modelled as a stream. -/
structure BaseDE (P E : Type) (D : ℕ) where
  kCR_ : ℚ
  kF_ : P
  callback_population_generator_ : ℕ → P
  callback_calc_error_ : (Fin D → P) → E
  callback_error_evaluation_ : E → E → Bool

/-- The state owned by one ThreadsDESolver: subpopulation, parallel error
array, the persistent trial candidate buffer, the recorded local best and
the three solver-owned random streams with their consumption counters. -/
structure SolverState (P E : Type) (D n : ℕ) where
  population_ : Fin n → Fin D → P
  pop_candidate_ : Fin D → P
  pop_errors_ : Fin n → E
  best_candidate_ : E × (Fin D → P)
  random_cr_ : ℕ → ℚ
  cr_ix : ℕ
  random_trials_ : ℕ → Fin n
  trials_ix : ℕ
  random_j_ : ℕ → Fin D
  j_ix : ℕ

/-- Population initialization: nested loops over index and dimension,
drawing from the generator stream in row-major order. -/
def generatePopulation {P E : Type} {D n : ℕ} (bd : BaseDE P E D) : Fin n → Fin D → P :=
  fun i d => bd.callback_population_generator_ (i.val * D + d.val)

/-- Initial errors: evaluate the error callback on every row. -/
def calcGenerationError {P E : Type} {D n : ℕ} (bd : BaseDE P E D)
    (pop : Fin n → Fin D → P) : Fin n → E :=
  fun i => bd.callback_calc_error_ (fun d => pop i d)

/-- The dimension index increment `j = (j + 1) % POP_DIM` of the source. -/
def nextDim {D : ℕ} [NeZero D] (j : Fin D) : Fin D :=
  ⟨(j.val + 1) % D, Nat.mod_lt _ (NeZero.pos D)⟩

/-- The dimension reached after `m` increments from `j`. -/
def dimAt {D : ℕ} [NeZero D] (j : Fin D) (m : ℕ) : Fin D :=
  ⟨(j.val + m) % D, Nat.mod_lt _ (NeZero.pos D)⟩

/-- The rejection loop `while (it1 == it0) it1 = random_trials_();` of
mutation, with the first draw folded in: draws from the stream starting
at `ix` until a value different from `it0` appears, spending fuel. -/
def pickNe {n : ℕ} (trS : ℕ → Fin n) (it0 : Fin n) : ℕ → ℕ → Option (Fin n × ℕ)
  | _, 0 => none
  | ix, fuel + 1 =>
    let v := trS ix
    if v = it0 then pickNe trS it0 (ix + 1) fuel else some (v, ix + 1)

/-- The rejection loop `while (it2 == it1 || it2 == it0)` of mutation. -/
def pickNe2 {n : ℕ} (trS : ℕ → Fin n) (it0 it1 : Fin n) : ℕ → ℕ → Option (Fin n × ℕ)
  | _, 0 => none
  | ix, fuel + 1 =>
    let v := trS ix
    if v = it1 ∨ v = it0 then pickNe2 trS it0 it1 (ix + 1) fuel else some (v, ix + 1)

/-- The crossover loop `for (int k = 1; k < POP_DIM; ++k)` of mutation:
for each of `count` steps draw once from the crossover stream, write the
combination formula into the candidate at the current dimension when the
draw is at most CR, otherwise copy the original value, then step the
dimension cyclically. Returns the candidate and the new stream counter. -/
def crossoverLoop {P : Type} [Ring P] {D : ℕ} [NeZero D] (kCR : ℚ) (kF : P)
    (t0 t1 t2 orig : Fin D → P) (crS : ℕ → ℚ) :
    ℕ → (Fin D → P) → Fin D → ℕ → ((Fin D → P) × ℕ)
  | 0, cand, _, crIx => (cand, crIx)
  | c + 1, cand, j, crIx =>
    let cand' := if crS crIx ≤ kCR
      then Function.update cand j (t0 j + kF * (t1 j - t2 j))
      else Function.update cand j (orig j)
    crossoverLoop kCR kF t0 t1 t2 orig crS c cand' (nextDim j) (crIx + 1)

/-- Result of one mutation call: the trial candidate written into
pop_candidate_, the three chosen trial indices, and the new counters of
the three solver streams. -/
structure MutResult (P : Type) (D n : ℕ) where
  cand : Fin D → P
  it0 : Fin n
  it1 : Fin n
  it2 : Fin n
  j_ix2 : ℕ
  trials_ix2 : ℕ
  cr_ix2 : ℕ

/-- ThreadsDESolver::mutation: draw the starting dimension, draw it0,
rejection-sample it1 and it2 distinct from the earlier picks, snapshot
the three trial rows, write the combination formula at the starting
dimension, then run the crossover loop over the remaining D-1 dimensions. -/
def mutation {P E : Type} [Ring P] {D n : ℕ} [NeZero D] (bd : BaseDE P E D)
    (pop : Fin n → Fin D → P) (pc : Fin D → P) (actual_index : Fin n)
    (jS : ℕ → Fin D) (j_ix : ℕ) (trS : ℕ → Fin n) (trials_ix : ℕ)
    (crS : ℕ → ℚ) (cr_ix : ℕ) (fuel : ℕ) : Option (MutResult P D n) :=
  let j := jS j_ix
  let it0 := trS trials_ix
  (pickNe trS it0 (trials_ix + 1) fuel).bind fun p1 =>
    (pickNe2 trS it0 p1.1 p1.2 fuel).bind fun p2 =>
      let t0 := pop it0
      let t1 := pop p1.1
      let t2 := pop p2.1
      let pc1 := Function.update pc j (t0 j + bd.kF_ * (t1 j - t2 j))
      let r := crossoverLoop bd.kCR_ bd.kF_ t0 t1 t2 (pop actual_index) crS
        (D - 1) pc1 (nextDim j) cr_ix
      some ⟨r.1, it0, p1.1, p2.1, j_ix + 1, p2.2, r.2⟩

/-- One mutation call acting on the solver state: updates the trial
candidate buffer and the stream counters, nothing else. -/
def mutationStep {P E : Type} [Ring P] {D n : ℕ} [NeZero D] (bd : BaseDE P E D)
    (st : SolverState P E D n) (i : Fin n) (fuel : ℕ) : Option (SolverState P E D n) :=
  (mutation bd st.population_ st.pop_candidate_ i st.random_j_ st.j_ix
      st.random_trials_ st.trials_ix st.random_cr_ st.cr_ix fuel).map fun r =>
    { st with pop_candidate_ := r.cand, j_ix := r.j_ix2,
              trials_ix := r.trials_ix2, cr_ix := r.cr_ix2 }

/-- ThreadsDESolver::select: evaluate the trial error; when the ordering
predicate judges it better than the stored error, overwrite the slot and
its error, otherwise leave the state unchanged. -/
def select {P E : Type} {D n : ℕ} (bd : BaseDE P E D)
    (st : SolverState P E D n) (actual_index : Fin n) : SolverState P E D n :=
  let error_new := bd.callback_calc_error_ st.pop_candidate_
  if bd.callback_error_evaluation_ error_new (st.pop_errors_ actual_index) then
    { st with population_ := Function.update st.population_ actual_index st.pop_candidate_,
              pop_errors_ := Function.update st.pop_errors_ actual_index error_new }
  else st

/-- The SOLVE_GENERATION loop body over a given list of indices:
`mutation(i); select(i);` applied in order, each select writing in place
before the next index is processed. -/
def evolveGo {P E : Type} [Ring P] {D n : ℕ} [NeZero D] (bd : BaseDE P E D)
    (fuel : ℕ) : List (Fin n) → SolverState P E D n → Option (SolverState P E D n)
  | [], st => some st
  | i :: L, st =>
    match mutationStep bd st i fuel with
    | none => none
    | some st1 => evolveGo bd fuel L (select bd st1 i)

/-- The SOLVE_GENERATION branch of ThreadsDESolver::run: process every
slot in index order. -/
def solveGenerationWork {P E : Type} [Ring P] {D n : ℕ} [NeZero D]
    (bd : BaseDE P E D) (fuel : ℕ) (st : SolverState P E D n) :
    Option (SolverState P E D n) :=
  evolveGo bd fuel (List.finRange n) st

/-- A variant of the generation loop that follows the classical DE
description in which mutation draws its trial rows (and the crossover
copy source) from a snapshot of the population taken before the
generation started; used as a foil to show the source works in place. -/
def evolveGoSnapshot {P E : Type} [Ring P] {D n : ℕ} [NeZero D] (bd : BaseDE P E D)
    (fuel : ℕ) (pop0 : Fin n → Fin D → P) :
    List (Fin n) → SolverState P E D n → Option (SolverState P E D n)
  | [], st => some st
  | i :: L, st =>
    match (mutation bd pop0 st.pop_candidate_ i st.random_j_ st.j_ix
        st.random_trials_ st.trials_ix st.random_cr_ st.cr_ix fuel).map (fun r =>
        { st with pop_candidate_ := r.cand, j_ix := r.j_ix2,
                  trials_ix := r.trials_ix2, cr_ix := r.cr_ix2 }) with
    | none => none
    | some st1 => evolveGoSnapshot bd fuel pop0 L (select bd st1 i)

/-- Snapshot-based generation: the foil for the in-place source loop. -/
def solveGenerationSnapshot {P E : Type} [Ring P] {D n : ℕ} [NeZero D]
    (bd : BaseDE P E D) (fuel : ℕ) (st : SolverState P E D n) :
    Option (SolverState P E D n) :=
  evolveGoSnapshot bd fuel st.population_ (List.finRange n) st

/-- std::min_element with the ordering predicate as comparator: scan the
remaining list, replacing the current best only on a strictly better
element. -/
def minElemFold {E : Type} {n : ℕ} (pred : E → E → Bool) (errs : Fin n → E) :
    List (Fin n) → Fin n → Fin n
  | [], best => best
  | k :: L, best =>
    minElemFold pred errs L (if pred (errs k) (errs best) then k else best)

/-- Index of the first minimal error under the predicate: min_element
starts at the first element and scans the rest. -/
def minElemIdx {E : Type} {n : ℕ} [NeZero n] (pred : E → E → Bool)
    (errs : Fin n → E) : Fin n :=
  minElemFold pred errs (List.finRange n).tail ⟨0, NeZero.pos n⟩

/-- The GET_BEST_CANDIDATE branch of ThreadsDESolver::run: find the
argmin of the error array under the predicate, copy the winning row, and
record the pair as the local best. Population and errors are untouched. -/
def getBestWork {P E : Type} {D n : ℕ} [NeZero n] (bd : BaseDE P E D)
    (st : SolverState P E D n) : SolverState P E D n :=
  let m := minElemIdx bd.callback_error_evaluation_ st.pop_errors_
  { st with best_candidate_ := (st.pop_errors_ m, fun d => st.population_ m d) }

/-- The state owned by the ThreadsDE coordinator: one solver state per
index, plus the two coordinator-owned migration streams with their
consumption counters. -/
structure DEState (P E : Type) (D n T : ℕ) where
  solvers_ : Fin T → SolverState P E D n
  random_phi_ : ℕ → ℚ
  phi_ix : ℕ
  random_migration_index_ : ℕ → Fin n
  mi_ix : ℕ

/-- The migration destination `(i + 1) % solvers_.size()`: ring successor. -/
def ringSucc {T : ℕ} [NeZero T] (i : Fin T) : Fin T :=
  ⟨(i.val + 1) % T, Nat.mod_lt _ (NeZero.pos T)⟩

/-- The body of one migration transfer: copy the local best candidate of
solver `i` over slot `mi` of the ring-successor subpopulation. Only the
coordinator solver table changes, and in it only the destination row. -/
def migrationWrite {P E : Type} {D n T : ℕ} [NeZero T]
    (st : DEState P E D n T) (i : Fin T) (mi : Fin n) : DEState P E D n T :=
  let bc := (st.solvers_ i).best_candidate_.2
  let dst := ringSucc i
  let sv := { st.solvers_ dst with
    population_ := Function.update (st.solvers_ dst).population_ mi bc }
  { st with solvers_ := Function.update st.solvers_ dst sv }

/-- The migration for-loop: for each solver index in the given order draw
once from the phi stream; when the draw is strictly below the migration
probability, wait on that solver, draw a slot from the migration index
stream and perform the transfer. Returns the final state together with
the log of performed transfers as (waited solver, destination, slot). -/
def migrationLoop {P E : Type} {D n T : ℕ} [NeZero T] (phi : ℚ) :
    List (Fin T) → DEState P E D n T →
    DEState P E D n T × List (Fin T × Fin T × Fin n)
  | [], st => (st, [])
  | i :: L, st =>
    let p := st.random_phi_ st.phi_ix
    let st1 := { st with phi_ix := st.phi_ix + 1 }
    if p < phi then
      let mi := st1.random_migration_index_ st1.mi_ix
      let st2 := migrationWrite { st1 with mi_ix := st1.mi_ix + 1 } i mi
      let r := migrationLoop phi L st2
      (r.1, (i, ringSucc i, mi) :: r.2)
    else
      migrationLoop phi L st1

/-- ThreadsDE::migration: broadcast the local-best command to every
solver, then run the probabilistic transfer loop over solver indices in
order. -/
def migration {P E : Type} {D n T : ℕ} [NeZero n] [NeZero T]
    (bd : BaseDE P E D) (phi : ℚ) (st : DEState P E D n T) :
    DEState P E D n T × List (Fin T × Fin T × Fin n) :=
  let st1 := { st with solvers_ := fun k => getBestWork bd (st.solvers_ k) }
  migrationLoop phi (List.finRange T) st1

/-- ThreadsDE::getBestCandidate: broadcast the local-best command, wait
on every solver, then reduce across solvers starting from solver zero
using the builtin strict order on errors. Returns the reduced pair and
the post-broadcast state. -/
def getBestCandidate {P E : Type} {D n T : ℕ} [NeZero n] [NeZero T]
    [LinearOrder E] (bd : BaseDE P E D) (st : DEState P E D n T) :
    (E × (Fin D → P)) × DEState P E D n T :=
  let st1 := { st with solvers_ := fun k => getBestWork bd (st.solvers_ k) }
  let init := (st1.solvers_ ⟨0, NeZero.pos T⟩).best_candidate_
  let res := (List.finRange T).foldl (fun acc k =>
    let bc := (st1.solvers_ k).best_candidate_
    if bc.1 < acc.1 then bc else acc) init
  (res, st1)

/-- Fan-out of one command to a set of solvers, executed in the given
order; each execution touches only the state of its own solver. -/
def applyAllOpt {T : ℕ} {S : Type} (f : Fin T → S → Option S) :
    List (Fin T) → (Fin T → S) → Option (Fin T → S)
  | [], g => some g
  | i :: L, g =>
    match f i (g i) with
    | none => none
    | some s => applyAllOpt f L (Function.update g i s)

/-- ThreadsDE::solveOneGeneration with explicit worker schedules: fan
out the evolve command (executed in order `o1`), fan in, then run the
migration phase whose local-best broadcast executes in order `o2`. -/
def solveOneGenerationSched {P E : Type} [Ring P] {D n T : ℕ} [NeZero D]
    [NeZero n] [NeZero T] (bd : BaseDE P E D) (phi : ℚ) (fuel : ℕ)
    (o1 o2 : List (Fin T)) (st : DEState P E D n T) :
    Option (DEState P E D n T) :=
  (applyAllOpt (fun _ s => solveGenerationWork bd fuel s) o1 st.solvers_).bind
    fun sv =>
      (applyAllOpt (fun _ s => some (getBestWork bd s)) o2 sv).bind fun sv2 =>
        some (migrationLoop phi (List.finRange T) { st with solvers_ := sv2 }).1

/-- ThreadsDE::solveNGenerations with explicit per-generation schedules. -/
def solveNGenerationsSched {P E : Type} [Ring P] {D n T : ℕ} [NeZero D]
    [NeZero n] [NeZero T] (bd : BaseDE P E D) (phi : ℚ) (fuel : ℕ)
    (sch : ℕ → List (Fin T) × List (Fin T)) :
    ℕ → DEState P E D n T → Option (DEState P E D n T)
  | 0, st => some st
  | g + 1, st =>
    match solveOneGenerationSched bd phi fuel (sch g).1 (sch g).2 st with
    | none => none
    | some st1 => solveNGenerationsSched bd phi fuel sch g st1

/-! ### Concrete instances used for witnesses and counterexamples -/

/-- Concrete trial-index stream driving three mutation calls. -/
def trS9 : ℕ → Fin 3 := fun k =>
  if k = 0 then 1 else if k = 1 then 2 else if k = 2 then 0 else
  if k = 3 then 0 else if k = 4 then 2 else if k = 5 then 1 else
  if k = 6 then 1 else if k = 7 then 2 else 0

/-- Concrete one-dimensional integer configuration: the error of a
candidate is its single component, smaller is better, CR = 1, F = 1. -/
def bd9 : BaseDE ℤ ℤ 1 where
  kCR_ := 1
  kF_ := 1
  callback_population_generator_ := fun _ => 0
  callback_calc_error_ := fun c => c 0
  callback_error_evaluation_ := fun a b => decide (a < b)

def pop9 : Fin 3 → Fin 1 → ℤ := fun i _ =>
  if i.val = 0 then 10 else if i.val = 1 then 1 else 2

/-- Concrete three-slot solver state with consistent errors. -/
def stC9 : SolverState ℤ ℤ 1 3 where
  population_ := pop9
  pop_candidate_ := fun _ => 0
  pop_errors_ := fun i => if i.val = 0 then 10 else if i.val = 1 then 1 else 2
  best_candidate_ := (0, fun _ => 0)
  random_cr_ := fun _ => 0
  cr_ix := 0
  random_trials_ := trS9
  trials_ix := 0
  random_j_ := fun _ => 0
  j_ix := 0

/-- Concrete two-dimensional configuration for the trial-construction
witness. -/
def bd5 : BaseDE ℤ ℤ 2 where
  kCR_ := 1
  kF_ := 1
  callback_population_generator_ := fun _ => 0
  callback_calc_error_ := fun c => c 0 + c 1
  callback_error_evaluation_ := fun a b => decide (a < b)

def pop5 : Fin 3 → Fin 2 → ℤ := fun i d => (i.val : ℤ) * 2 + (d.val : ℤ)

def trS5 : ℕ → Fin 3 := fun k => ⟨k % 3, Nat.mod_lt _ (by omega)⟩

/-- A four-valued error type with the strict numeric order as predicate,
used where finite decidability of the ordering axioms matters. -/
def predFin : Fin 4 → Fin 4 → Bool := fun a b => decide (a.val < b.val)

def bdFin : BaseDE ℤ (Fin 4) 1 where
  kCR_ := 1
  kF_ := 1
  callback_population_generator_ := fun _ => 0
  callback_calc_error_ := fun _ => 0
  callback_error_evaluation_ := predFin

/-- Solver state with errors 3, 2, 2: the argmin under the strict order
is slot 1, a tie with slot 2 resolved in favour of the first found. -/
def stFin : SolverState ℤ (Fin 4) 1 3 where
  population_ := fun i _ => (i.val : ℤ)
  pop_candidate_ := fun _ => 0
  pop_errors_ := fun i => if i.val = 0 then 3 else 2
  best_candidate_ := (0, fun _ => 0)
  random_cr_ := fun _ => 0
  cr_ix := 0
  random_trials_ := fun _ => 0
  trials_ix := 0
  random_j_ := fun _ => 0
  j_ix := 0

/-- Maximizing predicate: an error is better when it is larger. -/
def bdMax : BaseDE ℤ ℤ 1 where
  kCR_ := 1
  kF_ := 1
  callback_population_generator_ := fun _ => 0
  callback_calc_error_ := fun c => c 0
  callback_error_evaluation_ := fun a b => decide (b < a)

/-- One-slot solver holding the single value v everywhere. -/
def oneSlot (v : ℤ) : SolverState ℤ ℤ 1 1 where
  population_ := fun _ _ => v
  pop_candidate_ := fun _ => v
  pop_errors_ := fun _ => v
  best_candidate_ := (v, fun _ => v)
  random_cr_ := fun _ => 0
  cr_ix := 0
  random_trials_ := fun _ => 0
  trials_ix := 0
  random_j_ := fun _ => 0
  j_ix := 0

/-- Coordinator state with two one-slot solvers holding errors 1 and 2. -/
def stC1 : DEState ℤ ℤ 1 1 2 where
  solvers_ := fun k => oneSlot (if k.val = 0 then 1 else 2)
  random_phi_ := fun _ => 1
  phi_ix := 0
  random_migration_index_ := fun _ => 0
  mi_ix := 0

/-- Coordinator state with two identical three-slot solvers. -/
def stD3 : DEState ℤ ℤ 1 3 2 where
  solvers_ := fun _ => stC9
  random_phi_ := fun _ => 1
  phi_ix := 0
  random_migration_index_ := fun _ => 0
  mi_ix := 0

/-- Specification of which solvers the migration loop waits on, written
from the amended claim wording: walking the solver list in order with
one fresh phi draw per solver, a solver is waited on exactly when its
draw is strictly below the migration probability. -/
def waitedSpec {T : ℕ} (phiS : ℕ → ℚ) (phi : ℚ) : ℕ → List (Fin T) → List (Fin T)
  | _, [] => []
  | ix, i :: L =>
    if phiS ix < phi then i :: waitedSpec phiS phi (ix + 1) L
    else waitedSpec phiS phi (ix + 1) L

/-! ### Lemmas about the rejection-sampling index selection -/

theorem pickNe_some {n : ℕ} {trS : ℕ → Fin n} {it0 : Fin n} {fuel : ℕ} :
    ∀ {ix : ℕ} {v : Fin n} {ix2 : ℕ},
      pickNe trS it0 ix fuel = some (v, ix2) → v ≠ it0 := by
  induction fuel with
  | zero => intro ix v ix2 h; simp [pickNe] at h
  | succ f ih =>
    intro ix v ix2 h
    simp only [pickNe] at h
    by_cases hv : trS ix = it0
    · rw [if_pos hv] at h
      exact ih h
    · rw [if_neg hv] at h
      simp only [Option.some.injEq, Prod.mk.injEq] at h
      rw [← h.1]
      exact hv

theorem pickNe2_some {n : ℕ} {trS : ℕ → Fin n} {it0 it1 : Fin n} {fuel : ℕ} :
    ∀ {ix : ℕ} {v : Fin n} {ix2 : ℕ},
      pickNe2 trS it0 it1 ix fuel = some (v, ix2) → v ≠ it0 ∧ v ≠ it1 := by
  induction fuel with
  | zero => intro ix v ix2 h; simp [pickNe2] at h
  | succ f ih =>
    intro ix v ix2 h
    simp only [pickNe2] at h
    by_cases hv : trS ix = it1 ∨ trS ix = it0
    · rw [if_pos hv] at h
      exact ih h
    · rw [if_neg hv] at h
      simp only [Option.some.injEq, Prod.mk.injEq] at h
      push_neg at hv
      rw [← h.1]
      exact ⟨hv.2, hv.1⟩

/-- Decomposition of a successful mutation call into its parts: the
chosen indices come from the stream and the two rejection loops, and the
candidate and new counters come from the first-dimension write followed
by the crossover loop. -/
theorem mutation_some_parts {P E : Type} [Ring P] {D n : ℕ} [NeZero D]
    (bd : BaseDE P E D) (pop : Fin n → Fin D → P) (pc : Fin D → P) (i : Fin n)
    (jS : ℕ → Fin D) (j_ix : ℕ) (trS : ℕ → Fin n) (trials_ix : ℕ)
    (crS : ℕ → ℚ) (cr_ix : ℕ) (fuel : ℕ) (res : MutResult P D n)
    (h : mutation bd pop pc i jS j_ix trS trials_ix crS cr_ix fuel = some res) :
    ∃ ix1,
      pickNe trS (trS trials_ix) (trials_ix + 1) fuel = some (res.it1, ix1) ∧
      pickNe2 trS (trS trials_ix) res.it1 ix1 fuel = some (res.it2, res.trials_ix2) ∧
      res.it0 = trS trials_ix ∧
      res.j_ix2 = j_ix + 1 ∧
      res.cand = (crossoverLoop bd.kCR_ bd.kF_ (pop res.it0) (pop res.it1)
        (pop res.it2) (pop i) crS (D - 1)
        (Function.update pc (jS j_ix) (pop res.it0 (jS j_ix) +
          bd.kF_ * (pop res.it1 (jS j_ix) - pop res.it2 (jS j_ix))))
        (nextDim (jS j_ix)) cr_ix).1 ∧
      res.cr_ix2 = (crossoverLoop bd.kCR_ bd.kF_ (pop res.it0) (pop res.it1)
        (pop res.it2) (pop i) crS (D - 1)
        (Function.update pc (jS j_ix) (pop res.it0 (jS j_ix) +
          bd.kF_ * (pop res.it1 (jS j_ix) - pop res.it2 (jS j_ix))))
        (nextDim (jS j_ix)) cr_ix).2 := by
  simp only [mutation, Option.bind_eq_some] at h
  obtain ⟨p1, hp1, h⟩ := h
  obtain ⟨p2, hp2, h⟩ := h
  obtain rfl := (Option.some.inj h).symm
  exact ⟨p1.2, hp1, hp2, rfl, rfl, rfl, rfl⟩

/-- Claim C6: whenever the index selection of mutation terminates, the
three chosen trial indices are pairwise distinct in the sense it1 not
equal to it0 and it2 outside the pair, for every subpopulation state and
every random index stream. -/
theorem c6_distinct_trial_indices :
    (∀ (n : ℕ) (trS : ℕ → Fin n) (it0 : Fin n) (ix fuel : ℕ) (v : Fin n)
      (ix2 : ℕ), pickNe trS it0 ix fuel = some (v, ix2) → v ≠ it0) ∧
    (∀ (n : ℕ) (trS : ℕ → Fin n) (it0 it1 : Fin n) (ix fuel : ℕ) (v : Fin n)
      (ix2 : ℕ), pickNe2 trS it0 it1 ix fuel = some (v, ix2) →
        v ≠ it0 ∧ v ≠ it1) ∧
    (∀ (P E : Type) (inst : Ring P) (D n : ℕ) (instD : NeZero D)
      (bd : BaseDE P E D) (pop : Fin n → Fin D → P) (pc : Fin D → P)
      (i : Fin n) (jS : ℕ → Fin D) (j_ix : ℕ) (trS : ℕ → Fin n)
      (trials_ix : ℕ) (crS : ℕ → ℚ) (cr_ix : ℕ) (fuel : ℕ)
      (res : MutResult P D n),
      mutation bd pop pc i jS j_ix trS trials_ix crS cr_ix fuel = some res →
        res.it1 ≠ res.it0 ∧ res.it2 ≠ res.it0 ∧ res.it2 ≠ res.it1) := by
  refine ⟨fun n trS it0 ix fuel v ix2 h => pickNe_some h,
    fun n trS it0 it1 ix fuel v ix2 h => pickNe2_some h, ?_⟩
  intro P E inst D n instD bd pop pc i jS j_ix trS trials_ix crS cr_ix fuel res h
  obtain ⟨ix1, hp1, hp2, hit0, -⟩ :=
    mutation_some_parts bd pop pc i jS j_ix trS trials_ix crS cr_ix fuel res h
  have h1 := pickNe_some hp1
  have h2 := pickNe2_some hp2
  rw [← hit0] at h1 h2
  exact ⟨h1, h2.1, h2.2⟩

/-- Witness for C6 at a concrete stream: the loops terminate and return
indices distinct as stated. -/
theorem c6_witness :
    pickNe (fun k => if k = 0 then (0 : Fin 3) else 1) 0 0 5 = some (1, 2) ∧
    ((1 : Fin 3) ≠ 0) := by
  have hpick : pickNe (fun k => if k = 0 then (0 : Fin 3) else 1) 0 0 5 =
      some (1, 2) := by decide
  exact ⟨hpick, c6_distinct_trial_indices.1 3 _ 0 0 5 1 2 hpick⟩

/-- In a subpopulation of size at least three, a value distinct from any
two given indices exists. -/
theorem exists_third {n : ℕ} (hn : 3 ≤ n) (it0 it1 : Fin n) :
    ∃ v : Fin n, v ≠ it0 ∧ v ≠ it1 := by
  have hne : ({it0, it1}ᶜ : Finset (Fin n)).Nonempty := by
    rw [← Finset.card_pos, Finset.card_compl]
    have hcard : ({it0, it1} : Finset (Fin n)).card ≤ 2 := by
      classical
      calc ({it0, it1} : Finset (Fin n)).card
          ≤ ({it1} : Finset (Fin n)).card + 1 := Finset.card_insert_le _ _
        _ ≤ 2 := by simp
    simp only [Fintype.card_fin]
    omega
  obtain ⟨v, hv⟩ := hne
  rw [Finset.mem_compl, Finset.mem_insert, Finset.mem_singleton] at hv
  push_neg at hv
  exact ⟨v, hv⟩

/-- In a two-element index space every stream value hits one of two
distinct forbidden indices. -/
theorem fin2_forbidden : ∀ (v a b : Fin 2), a ≠ b → v = b ∨ v = a := by decide

/-- With only two distinct indices available, the it2 loop rejects every
possible draw: no stream and no amount of fuel makes it terminate. -/
theorem pickNe2_two_none (trS : ℕ → Fin 2) (it0 it1 : Fin 2) (h : it0 ≠ it1) :
    ∀ (fuel ix : ℕ), pickNe2 trS it0 it1 ix fuel = none := by
  intro fuel
  induction fuel with
  | zero => intro ix; rfl
  | succ f ih =>
    intro ix
    simp only [pickNe2]
    rw [if_pos (fin2_forbidden (trS ix) it0 it1 h)]
    exact ih (ix + 1)

/-- When the stream produces an acceptable value after `t` rejected
draws and the fuel exceeds `t`, the it2 loop terminates. -/
theorem pickNe2_terminates {n : ℕ} (trS : ℕ → Fin n) (it0 it1 : Fin n) :
    ∀ (fuel t ix : ℕ), t < fuel → trS (ix + t) ≠ it0 → trS (ix + t) ≠ it1 →
      (pickNe2 trS it0 it1 ix fuel).isSome = true := by
  intro fuel
  induction fuel with
  | zero => intro t ix ht; omega
  | succ f ih =>
    intro t ix ht h0 h1
    simp only [pickNe2]
    by_cases hv : trS ix = it1 ∨ trS ix = it0
    · rw [if_pos hv]
      match t, ht with
      | 0, _ =>
        simp only [Nat.add_zero] at h0 h1
        rcases hv with hv | hv
        · exact absurd hv h1
        · exact absurd hv h0
      | t' + 1, ht =>
        refine ih t' (ix + 1) (by omega) ?_ ?_ <;>
          rw [Nat.add_right_comm ix 1 t'] <;> assumption
    · rw [if_neg hv]
      rfl

/-- Claim C8: with a subpopulation of size two (fewer than three
distinct indices available) the it2 rejection loop never terminates for
any random stream; with size at least three an acceptable value exists,
and whenever the stream eventually produces an acceptable value the loop
terminates. -/
theorem c8_degenerate_livelock :
    (∀ (trS : ℕ → Fin 2) (it0 it1 : Fin 2), it0 ≠ it1 →
      ∀ (fuel ix : ℕ), pickNe2 trS it0 it1 ix fuel = none) ∧
    (∀ (n : ℕ), 3 ≤ n → ∀ (it0 it1 : Fin n), ∃ v : Fin n, v ≠ it0 ∧ v ≠ it1) ∧
    (∀ (n : ℕ) (trS : ℕ → Fin n) (it0 it1 : Fin n) (fuel t ix : ℕ),
      t < fuel → trS (ix + t) ≠ it0 → trS (ix + t) ≠ it1 →
      (pickNe2 trS it0 it1 ix fuel).isSome = true) :=
  ⟨fun trS it0 it1 h => pickNe2_two_none trS it0 it1 h,
   fun n hn it0 it1 => exists_third hn it0 it1,
   fun n trS it0 it1 => pickNe2_terminates trS it0 it1⟩

/-- Witness for C8: concrete instances of all three parts. -/
theorem c8_witness :
    pickNe2 (fun _ => (0 : Fin 2)) 0 1 0 7 = none ∧
    (∃ v : Fin 3, v ≠ 0 ∧ v ≠ 1) ∧
    (pickNe2 (fun _ => (2 : Fin 3)) 0 1 0 1).isSome = true := by
  refine ⟨c8_degenerate_livelock.1 _ 0 1 (by decide) 7 0,
    c8_degenerate_livelock.2.1 3 (by omega) 0 1,
    c8_degenerate_livelock.2.2 3 _ 0 1 1 0 0 (by omega) (by decide) (by decide)⟩

/-! ### Dimension-cycle arithmetic and the crossover loop -/

theorem dimAt_zero {D : ℕ} [NeZero D] (j : Fin D) : dimAt j 0 = j := by
  apply Fin.ext
  simp only [dimAt, Nat.add_zero]
  exact Nat.mod_eq_of_lt j.isLt

theorem dimAt_nextDim {D : ℕ} [NeZero D] (j : Fin D) (m : ℕ) :
    dimAt (nextDim j) m = dimAt j (m + 1) := by
  apply Fin.ext
  simp only [dimAt, nextDim]
  rw [Nat.mod_add_mod]
  congr 1
  omega

theorem dimAt_ne_self {D : ℕ} [NeZero D] (j : Fin D) (k : ℕ)
    (h0 : 0 < k) (hD : k < D) : dimAt j k ≠ j := by
  intro h
  have hval : (j.val + k) % D = j.val := congrArg Fin.val h
  have hmod : (j.val + k) % D = (j.val + 0) % D := by
    rw [hval, Nat.add_zero, Nat.mod_eq_of_lt j.isLt]
  have hk : k % D = 0 % D := Nat.ModEq.add_left_cancel' j.val hmod
  rw [Nat.mod_eq_of_lt hD, Nat.zero_mod] at hk
  omega

theorem dimAt_exists {D : ℕ} [NeZero D] (j d : Fin D) (hne : d ≠ j) :
    ∃ m, m < D - 1 ∧ d = dimAt j (m + 1) := by
  have hD : 0 < D := NeZero.pos D
  have hjD : j.val ≤ d.val + D := by have := j.isLt; omega
  have hkey : (j.val + (d.val + D - j.val) % D) % D = d.val := by
    rw [Nat.add_mod_mod, Nat.add_sub_cancel' hjD, Nat.add_mod_right,
      Nat.mod_eq_of_lt d.isLt]
  have hsD : (d.val + D - j.val) % D < D := Nat.mod_lt _ hD
  have hs0 : (d.val + D - j.val) % D ≠ 0 := by
    intro h0
    apply hne
    rw [h0, Nat.add_zero, Nat.mod_eq_of_lt j.isLt] at hkey
    exact Fin.ext hkey.symm
  refine ⟨(d.val + D - j.val) % D - 1, by omega, ?_⟩
  have hsplus : (d.val + D - j.val) % D - 1 + 1 = (d.val + D - j.val) % D := by
    omega
  rw [hsplus]
  exact Fin.ext hkey.symm

/-- Full characterization of the crossover loop: it consumes exactly one
crossover draw per iteration, writes the combination formula or the
original value at the successive cyclic dimensions according to the
draws, and leaves all other dimensions of the candidate untouched. -/
theorem crossoverLoop_spec {P : Type} [Ring P] {D : ℕ} [NeZero D] (kCR : ℚ)
    (kF : P) (t0 t1 t2 orig : Fin D → P) (crS : ℕ → ℚ) :
    ∀ (c : ℕ), c ≤ D → ∀ (cand : Fin D → P) (j : Fin D) (crIx : ℕ),
      (crossoverLoop kCR kF t0 t1 t2 orig crS c cand j crIx).2 = crIx + c ∧
      (∀ m, m < c →
        (crossoverLoop kCR kF t0 t1 t2 orig crS c cand j crIx).1 (dimAt j m) =
          if crS (crIx + m) ≤ kCR
          then t0 (dimAt j m) + kF * (t1 (dimAt j m) - t2 (dimAt j m))
          else orig (dimAt j m)) ∧
      (∀ d : Fin D, (∀ m, m < c → d ≠ dimAt j m) →
        (crossoverLoop kCR kF t0 t1 t2 orig crS c cand j crIx).1 d = cand d) := by
  intro c
  induction c with
  | zero =>
    intro hc cand j crIx
    exact ⟨rfl, fun m hm => absurd hm (by omega), fun d _ => rfl⟩
  | succ c ih =>
    intro hc cand j crIx
    simp only [crossoverLoop]
    obtain ⟨ihA, ihB, ihC⟩ := ih (by omega)
      (if crS crIx ≤ kCR
        then Function.update cand j (t0 j + kF * (t1 j - t2 j))
        else Function.update cand j (orig j)) (nextDim j) (crIx + 1)
    have hshift : ∀ m : ℕ, crIx + 1 + m = crIx + (m + 1) := by omega
    refine ⟨by rw [ihA]; omega, ?_, ?_⟩
    · intro m hm
      match m with
      | 0 =>
        have hne : ∀ m, m < c → j ≠ dimAt (nextDim j) m := by
          intro m hm'
          rw [dimAt_nextDim]
          exact (dimAt_ne_self j (m + 1) (by omega) (by omega)).symm
        rw [dimAt_zero, ihC j hne, Nat.add_zero]
        by_cases hcr : crS crIx ≤ kCR
        · rw [if_pos hcr, if_pos hcr, Function.update_same]
        · rw [if_neg hcr, if_neg hcr, Function.update_same]
      | m + 1 =>
        rw [← dimAt_nextDim, ihB m (by omega), hshift]
    · intro d hd
      have hd' : ∀ m, m < c → d ≠ dimAt (nextDim j) m := by
        intro m hm'
        rw [dimAt_nextDim]
        exact hd (m + 1) (by omega)
      have hdj : d ≠ j := by
        have := hd 0 (by omega)
        rwa [dimAt_zero] at this
      rw [ihC d hd']
      by_cases hcr : crS crIx ≤ kCR
      · rw [if_pos hcr, Function.update_noteq hdj]
      · rw [if_neg hcr, Function.update_noteq hdj]

/-- Claim C5: trial construction. The first, randomly chosen dimension is
always set to the combination formula; each of the remaining D-1
dimensions (cycling through all of them exactly once) independently
consumes one crossover draw and takes the combination formula when the
draw is at most CR, otherwise copies the current slot value; exactly D-1
crossover draws are consumed in total. -/
theorem c5_trial_construction {P E : Type} [Ring P] {D n : ℕ} [NeZero D]
    (bd : BaseDE P E D) (pop : Fin n → Fin D → P) (pc : Fin D → P) (i : Fin n)
    (jS : ℕ → Fin D) (j_ix : ℕ) (trS : ℕ → Fin n) (trials_ix : ℕ)
    (crS : ℕ → ℚ) (cr_ix : ℕ) (fuel : ℕ) (res : MutResult P D n)
    (h : mutation bd pop pc i jS j_ix trS trials_ix crS cr_ix fuel = some res) :
    res.cand (jS j_ix) = pop res.it0 (jS j_ix) +
      bd.kF_ * (pop res.it1 (jS j_ix) - pop res.it2 (jS j_ix)) ∧
    res.cr_ix2 = cr_ix + (D - 1) ∧
    (∀ d : Fin D, d ≠ jS j_ix → ∃ m, m < D - 1 ∧ d = dimAt (jS j_ix) (m + 1)) ∧
    (∀ m, m < D - 1 →
      res.cand (dimAt (jS j_ix) (m + 1)) =
        if crS (cr_ix + m) ≤ bd.kCR_
        then pop res.it0 (dimAt (jS j_ix) (m + 1)) +
          bd.kF_ * (pop res.it1 (dimAt (jS j_ix) (m + 1)) -
            pop res.it2 (dimAt (jS j_ix) (m + 1)))
        else pop i (dimAt (jS j_ix) (m + 1))) := by
  obtain ⟨ix1, hp1, hp2, hit0, hjx, hcand, hcrx⟩ :=
    mutation_some_parts bd pop pc i jS j_ix trS trials_ix crS cr_ix fuel res h
  obtain ⟨sA, sB, sC⟩ := crossoverLoop_spec bd.kCR_ bd.kF_ (pop res.it0)
    (pop res.it1) (pop res.it2) (pop i) crS (D - 1) (by omega)
    (Function.update pc (jS j_ix) (pop res.it0 (jS j_ix) +
      bd.kF_ * (pop res.it1 (jS j_ix) - pop res.it2 (jS j_ix))))
    (nextDim (jS j_ix)) cr_ix
  refine ⟨?_, ?_, fun d hd => dimAt_exists (jS j_ix) d hd, ?_⟩
  · have hne : ∀ m, m < D - 1 → jS j_ix ≠ dimAt (nextDim (jS j_ix)) m := by
      intro m hm
      rw [dimAt_nextDim]
      exact (dimAt_ne_self (jS j_ix) (m + 1) (by omega) (by omega)).symm
    rw [hcand, sC (jS j_ix) hne, Function.update_same]
  · rw [hcrx, sA]
  · intro m hm
    rw [hcand, ← dimAt_nextDim, sB m hm]

/-- Witness for C5 on a concrete two-dimensional mutation call: the
selection terminates and exactly D-1 = 1 crossover draw is consumed. -/
theorem c5_witness :
    ((mutation bd5 pop5 (fun _ => 0) 0 (fun _ => 0) 0 trS5 0 (fun _ => 0) 0
      3).map (fun r => r.cr_ix2)) = some (0 + (2 - 1)) := by
  cases hm : mutation bd5 pop5 (fun _ => 0) 0 (fun _ => 0) 0 trS5 0
      (fun _ => 0) 0 3 with
  | none =>
    have hsome : (mutation bd5 pop5 (fun _ => (0 : ℤ)) 0 (fun _ => 0) 0 trS5 0
        (fun _ => 0) 0 3).isSome = true := by decide
    rw [hm] at hsome
    cases hsome
  | some r =>
    have hc := (c5_trial_construction bd5 pop5 (fun _ => 0) 0 (fun _ => 0) 0
      trS5 0 (fun _ => 0) 0 3 r hm).2.1
    simp only [Option.map_some']
    rw [hc]

/-- Claim C9 (implicit in-place update): on a concrete configuration the
source loop, which applies selection immediately at every slot, produces
a different final subpopulation from the snapshot-based variant in which
mutation draws its trial rows from the pre-generation population; the
first processed slot is overwritten before later slots are processed and
the later mutations observe the overwritten value. -/
theorem c9_in_place_update :
    ((solveGenerationWork bd9 4 stC9).map
      (fun s => (s.population_ 0 0, s.population_ 1 0, s.population_ 2 0))) =
        some (-7, -6, 2) ∧
    ((solveGenerationSnapshot bd9 4 stC9).map
      (fun s => (s.population_ 0 0, s.population_ 1 0, s.population_ 2 0))) =
        some (-7, 1, -7) ∧
    ((solveGenerationWork bd9 4 stC9).map
      (fun s => (s.population_ 0 0, s.population_ 1 0, s.population_ 2 0))) ≠
      ((solveGenerationSnapshot bd9 4 stC9).map
        (fun s => (s.population_ 0 0, s.population_ 1 0, s.population_ 2 0))) ∧
    ((evolveGo bd9 4 [0] stC9).map (fun s => s.population_ 0 0)) =
      some (-7) ∧
    stC9.population_ 0 0 = 10 := by
  refine ⟨by decide, by decide, by decide, by decide, by decide⟩

/-! ### Frame and monotonicity lemmas for the generation loop -/

/-- A successful mutation step changes only the candidate buffer and the
stream counters. -/
theorem mutationStep_frame {P E : Type} [Ring P] {D n : ℕ} [NeZero D]
    (bd : BaseDE P E D) (st : SolverState P E D n) (i : Fin n) (fuel : ℕ)
    (st1 : SolverState P E D n) (h : mutationStep bd st i fuel = some st1) :
    st1.population_ = st.population_ ∧ st1.pop_errors_ = st.pop_errors_ := by
  simp only [mutationStep, Option.map_eq_some'] at h
  obtain ⟨r, -, rfl⟩ := h
  exact ⟨rfl, rfl⟩

/-- Selection at one slot leaves every other slot untouched. -/
theorem select_frame_ne {P E : Type} {D n : ℕ} (bd : BaseDE P E D)
    (st : SolverState P E D n) (i k : Fin n) (hk : k ≠ i) :
    (select bd st i).population_ k = st.population_ k ∧
    (select bd st i).pop_errors_ k = st.pop_errors_ k := by
  simp only [select]
  by_cases hcond : bd.callback_error_evaluation_
      (bd.callback_calc_error_ st.pop_candidate_) (st.pop_errors_ i) = true
  · rw [if_pos hcond]
    exact ⟨Function.update_noteq hk _ _, Function.update_noteq hk _ _⟩
  · rw [if_neg hcond]
    exact ⟨rfl, rfl⟩

/-- Selection at one slot either keeps the slot and its error unchanged
or records an error the predicate judges better than the old one. -/
theorem select_at {P E : Type} {D n : ℕ} (bd : BaseDE P E D)
    (st : SolverState P E D n) (i : Fin n) :
    ((select bd st i).population_ i = st.population_ i ∧
      (select bd st i).pop_errors_ i = st.pop_errors_ i) ∨
    bd.callback_error_evaluation_ ((select bd st i).pop_errors_ i)
      (st.pop_errors_ i) = true := by
  simp only [select]
  by_cases hcond : bd.callback_error_evaluation_
      (bd.callback_calc_error_ st.pop_candidate_) (st.pop_errors_ i) = true
  · right
    rw [if_pos hcond]
    simp only [Function.update_same]
    exact hcond
  · left
    rw [if_neg hcond]
    exact ⟨rfl, rfl⟩

/-- Slots outside the processed index list are untouched by the
generation loop. -/
theorem evolveGo_untouched {P E : Type} [Ring P] {D n : ℕ} [NeZero D]
    (bd : BaseDE P E D) (fuel : ℕ) :
    ∀ (L : List (Fin n)) (st st' : SolverState P E D n),
      evolveGo bd fuel L st = some st' → ∀ i : Fin n, i ∉ L →
        st'.population_ i = st.population_ i ∧
        st'.pop_errors_ i = st.pop_errors_ i := by
  intro L
  induction L with
  | nil =>
    intro st st' h i _
    obtain rfl := Option.some.inj h
    exact ⟨rfl, rfl⟩
  | cons j L ih =>
    intro st st' h i hi
    cases hm : mutationStep bd st j fuel with
    | none =>
      simp only [evolveGo, hm] at h
      exact Option.noConfusion h
    | some st1 =>
      simp only [evolveGo, hm] at h
      have hmf := mutationStep_frame bd st j fuel st1 hm
      have hji : i ≠ j := fun he => hi (he ▸ List.mem_cons_self j L)
      have hsel := select_frame_ne bd st1 j i hji
      have hrest := ih (select bd st1 j) st' h i
        (fun hmem => hi (List.mem_cons_of_mem j hmem))
      exact ⟨by rw [hrest.1, hsel.1, hmf.1], by rw [hrest.2, hsel.2, hmf.2]⟩

/-- Per-slot monotonicity of the generation loop over a duplicate-free
index list. -/
theorem evolveGo_mono {P E : Type} [Ring P] {D n : ℕ} [NeZero D]
    (bd : BaseDE P E D) (fuel : ℕ) :
    ∀ (L : List (Fin n)) (st st' : SolverState P E D n), L.Nodup →
      evolveGo bd fuel L st = some st' → ∀ i ∈ L,
        ((st'.population_ i = st.population_ i ∧
          st'.pop_errors_ i = st.pop_errors_ i) ∨
        bd.callback_error_evaluation_ (st'.pop_errors_ i)
          (st.pop_errors_ i) = true) := by
  intro L
  induction L with
  | nil =>
    intro st st' _ _ i hi
    cases hi
  | cons j L ih =>
    intro st st' hnd h i hi
    cases hm : mutationStep bd st j fuel with
    | none =>
      simp only [evolveGo, hm] at h
      exact Option.noConfusion h
    | some st1 =>
      simp only [evolveGo, hm] at h
      have hmf := mutationStep_frame bd st j fuel st1 hm
      rcases List.mem_cons.mp hi with rfl | hiL
      · have hj_not : i ∉ L := (List.nodup_cons.mp hnd).1
        have hrest := evolveGo_untouched bd fuel L (select bd st1 i) st' h i hj_not
        rcases select_at bd st1 i with ⟨hp, he⟩ | hbetter
        · left
          exact ⟨by rw [hrest.1, hp, hmf.1], by rw [hrest.2, he, hmf.2]⟩
        · right
          rw [hrest.2, ← hmf.2]
          exact hbetter
      · have hij : i ≠ j := by
          intro he
          exact (List.nodup_cons.mp hnd).1 (he ▸ hiL)
        have hsel := select_frame_ne bd st1 j i hij
        have hrec := ih (select bd st1 j) st' (List.nodup_cons.mp hnd).2 h i hiL
        rcases hrec with ⟨hp, he⟩ | hb
        · left
          exact ⟨by rw [hp, hsel.1, hmf.1], by rw [he, hsel.2, hmf.2]⟩
        · right
          rwa [hsel.2, congrFun hmf.2 i] at hb

/-- Claim C4: per-slot monotonicity of EvolveGeneration. After one
successful generation command every slot either kept its candidate and
error or holds a trial whose recorded error the ordering predicate
judges better than the error stored there before. -/
theorem c4_per_slot_monotonicity {P E : Type} [Ring P] {D n : ℕ} [NeZero D]
    (bd : BaseDE P E D) (fuel : ℕ) (st st' : SolverState P E D n)
    (h : solveGenerationWork bd fuel st = some st') (i : Fin n) :
    (st'.population_ i = st.population_ i ∧
      st'.pop_errors_ i = st.pop_errors_ i) ∨
    bd.callback_error_evaluation_ (st'.pop_errors_ i)
      (st.pop_errors_ i) = true :=
  evolveGo_mono bd fuel (List.finRange n) st st' (List.nodup_finRange n) h i
    (List.mem_finRange i)

/-- Witness for C4 on the concrete three-slot configuration. -/
theorem c4_witness :
    (solveGenerationWork bd9 4 stC9).elim False (fun st' =>
      (st'.population_ 0 = stC9.population_ 0 ∧
        st'.pop_errors_ 0 = stC9.pop_errors_ 0) ∨
      bd9.callback_error_evaluation_ (st'.pop_errors_ 0)
        (stC9.pop_errors_ 0) = true) := by
  cases hm : solveGenerationWork bd9 4 stC9 with
  | none =>
    have hsome : (solveGenerationWork bd9 4 stC9).isSome = true := by decide
    rw [hm] at hsome
    cases hsome
  | some st' =>
    exact c4_per_slot_monotonicity bd9 4 stC9 st' hm 0

/-! ### The local-best scan (std::min_element with the predicate) -/

/-- An asymmetric predicate is irreflexive. -/
theorem pred_irrefl {E : Type} (pred : E → E → Bool)
    (hAsym : ∀ a b, pred a b = true → pred b a = false) :
    ∀ a, pred a a = false := by
  intro a
  by_cases hp : pred a a = true
  · have hf := hAsym a a hp
    rw [hp] at hf
    exact Bool.noConfusion hf
  · exact Bool.eq_false_iff.mpr hp

/-- Membership in the tail of the canonical index enumeration. -/
theorem finRange_tail_mem {n : ℕ} (k : Fin n) :
    k ∈ (List.finRange n).tail ↔ 1 ≤ k.val := by
  cases n with
  | zero => exact k.elim0
  | succ m =>
    rw [List.finRange_succ_eq_map]
    simp only [List.tail_cons, List.mem_map]
    constructor
    · rintro ⟨j, -, rfl⟩
      simp [Fin.succ]
    · intro hk
      have hlt : k.val - 1 < m := by have := k.isLt; omega
      refine ⟨⟨k.val - 1, hlt⟩, List.mem_finRange _, ?_⟩
      apply Fin.ext
      simp [Fin.succ]
      omega

/-- The tail of the canonical index enumeration is sorted by index. -/
theorem finRange_tail_pairwise {n : ℕ} :
    List.Pairwise (fun a b : Fin n => a.val < b.val) (List.finRange n).tail := by
  have h := List.pairwise_lt_finRange n
  have h2 : List.Pairwise (fun a b : Fin n => a.val < b.val) (List.finRange n) :=
    h.imp (fun hab => hab)
  exact h2.sublist (List.tail_sublist _)

/-- Invariant of the min_element scan: over a sorted gap-free suffix of
the index range, the final best is not beaten by any element under the
predicate (given transitivity), and it strictly beats every element of
smaller index (given asymmetry and the splitting property), so ties go
to the first-found element. -/
theorem minElemFold_spec {E : Type} {n : ℕ} (pred : E → E → Bool)
    (errs : Fin n → E)
    (hT : ∀ a b c, pred a b = true → pred b c = true → pred a c = true)
    (hNT : ∀ a b c, pred a c = true → pred a b = true ∨ pred b c = true)
    (hAsym : ∀ a b, pred a b = true → pred b a = false) :
    ∀ (L : List (Fin n)) (t : ℕ) (best : Fin n),
      (∀ k : Fin n, k ∈ L ↔ t ≤ k.val) →
      List.Pairwise (fun a b : Fin n => a.val < b.val) L →
      best.val < t →
      (∀ k : Fin n, k.val < t → pred (errs k) (errs best) = false) →
      (∀ k : Fin n, k.val < best.val → pred (errs best) (errs k) = true) →
      (∀ k : Fin n, pred (errs k) (errs (minElemFold pred errs L best)) = false) ∧
      (∀ k : Fin n, k.val < (minElemFold pred errs L best).val →
        pred (errs (minElemFold pred errs L best)) (errs k) = true) := by
  intro L
  induction L with
  | nil =>
    intro t best hmem _ _ hb1 hb2
    refine ⟨fun k => hb1 k ?_, hb2⟩
    have hkt : ¬ t ≤ k.val := fun hle => (List.not_mem_nil k) ((hmem k).mpr hle)
    omega
  | cons j L ih =>
    intro t best hmem hpw hbt hb1 hb2
    have hjt : t ≤ j.val := (hmem j).mp (List.mem_cons_self j L)
    have hjval : j.val = t := by
      by_contra hne
      have htn : t < n := by have := j.isLt; omega
      have hv : (⟨t, htn⟩ : Fin n) ∈ j :: L := (hmem _).mpr (le_refl t)
      rcases List.mem_cons.mp hv with he | hmem2
      · have : t = j.val := congrArg Fin.val he
        omega
      · have := (List.pairwise_cons.mp hpw).1 _ hmem2
        simp only [] at this
        omega
    have hmem2 : ∀ k : Fin n, k ∈ L ↔ t + 1 ≤ k.val := by
      intro k
      constructor
      · intro hk
        have h2 := (List.pairwise_cons.mp hpw).1 k hk
        omega
      · intro hk
        have h1 : k ∈ j :: L := (hmem k).mpr (by omega)
        rcases List.mem_cons.mp h1 with rfl | hk2
        · omega
        · exact hk2
    have hpw2 := (List.pairwise_cons.mp hpw).2
    by_cases hc : pred (errs j) (errs best) = true
    · have hb1' : ∀ k : Fin n, k.val < t + 1 → pred (errs k) (errs j) = false := by
        intro k hk
        by_cases hkj : k.val = t
        · have hkeq : k = j := Fin.ext (by omega)
          rw [hkeq]
          exact pred_irrefl pred hAsym (errs j)
        · by_cases hp : pred (errs k) (errs j) = true
          · have hcontra := hT _ _ _ hp hc
            rw [hb1 k (by omega)] at hcontra
            exact Bool.noConfusion hcontra
          · exact Bool.eq_false_iff.mpr hp
      have hb2' : ∀ k : Fin n, k.val < j.val → pred (errs j) (errs k) = true := by
        intro k hk
        by_cases hkb : k.val < best.val
        · exact hT _ _ _ hc (hb2 k hkb)
        · rcases hNT (errs j) (errs k) (errs best) hc with h1 | h1
          · exact h1
          · rw [hb1 k (by omega)] at h1
            exact Bool.noConfusion h1
      have hrec := ih (t + 1) j hmem2 hpw2 (by omega) hb1' hb2'
      simp only [minElemFold, if_pos hc]
      exact hrec
    · have hb1' : ∀ k : Fin n, k.val < t + 1 → pred (errs k) (errs best) = false := by
        intro k hk
        by_cases hkj : k.val = t
        · have hkeq : k = j := Fin.ext (by omega)
          rw [hkeq]
          exact Bool.eq_false_iff.mpr hc
        · exact hb1 k (by omega)
      have hrec := ih (t + 1) best hmem2 hpw2 (by omega) hb1' hb2
      simp only [minElemFold, if_neg hc]
      exact hrec

/-- The argmin scan starting from slot zero is correct on the whole
error array. -/
theorem minElemIdx_spec {E : Type} {n : ℕ} [NeZero n] (pred : E → E → Bool)
    (errs : Fin n → E)
    (hT : ∀ a b c, pred a b = true → pred b c = true → pred a c = true)
    (hNT : ∀ a b c, pred a c = true → pred a b = true ∨ pred b c = true)
    (hAsym : ∀ a b, pred a b = true → pred b a = false) :
    (∀ k : Fin n, pred (errs k) (errs (minElemIdx pred errs)) = false) ∧
    (∀ k : Fin n, k.val < (minElemIdx pred errs).val →
      pred (errs (minElemIdx pred errs)) (errs k) = true) := by
  have h := minElemFold_spec pred errs hT hNT hAsym (List.finRange n).tail 1
    ⟨0, NeZero.pos n⟩ (fun k => finRange_tail_mem k) finRange_tail_pairwise
    Nat.zero_lt_one ?_ ?_
  · exact h
  · intro k hk
    have hk0 : k.val = 0 := by
      have : k.val < 1 := hk
      omega
    have hkeq : k = ⟨0, NeZero.pos n⟩ := Fin.ext hk0
    rw [hkeq]
    exact pred_irrefl pred hAsym _
  · intro k hk
    exact absurd hk (Nat.not_lt_zero _)

/-- Claim C7: the ComputeLocalBest command scans the error array,
selects the minimal element under the ordering predicate by pairwise
comparison with ties resolved in favour of the first-found index, and
records a copy of the winning candidate with its error as the local
best, leaving the subpopulation, the error array and the candidate
buffer unchanged. The ordering hypotheses are the strict-weak-order
properties the spec requires of the predicate. -/
theorem c7_compute_local_best {P E : Type} {D n : ℕ} [NeZero n]
    (bd : BaseDE P E D) (st : SolverState P E D n)
    (hT : ∀ a b c, bd.callback_error_evaluation_ a b = true →
      bd.callback_error_evaluation_ b c = true →
      bd.callback_error_evaluation_ a c = true)
    (hNT : ∀ a b c, bd.callback_error_evaluation_ a c = true →
      bd.callback_error_evaluation_ a b = true ∨
      bd.callback_error_evaluation_ b c = true)
    (hAsym : ∀ a b, bd.callback_error_evaluation_ a b = true →
      bd.callback_error_evaluation_ b a = false) :
    (getBestWork bd st).population_ = st.population_ ∧
    (getBestWork bd st).pop_errors_ = st.pop_errors_ ∧
    (getBestWork bd st).pop_candidate_ = st.pop_candidate_ ∧
    (getBestWork bd st).best_candidate_ =
      (st.pop_errors_ (minElemIdx bd.callback_error_evaluation_ st.pop_errors_),
       fun d => st.population_
         (minElemIdx bd.callback_error_evaluation_ st.pop_errors_) d) ∧
    (∀ k : Fin n, bd.callback_error_evaluation_ (st.pop_errors_ k)
      (st.pop_errors_
        (minElemIdx bd.callback_error_evaluation_ st.pop_errors_)) = false) ∧
    (∀ k : Fin n,
      k.val < (minElemIdx bd.callback_error_evaluation_ st.pop_errors_).val →
      bd.callback_error_evaluation_
        (st.pop_errors_ (minElemIdx bd.callback_error_evaluation_ st.pop_errors_))
        (st.pop_errors_ k) = true) := by
  obtain ⟨h1, h2⟩ :=
    minElemIdx_spec bd.callback_error_evaluation_ st.pop_errors_ hT hNT hAsym
  exact ⟨rfl, rfl, rfl, rfl, h1, h2⟩

/-- Witness for C7 on a finite error type where the ordering hypotheses
are decidable: errors 3, 2, 2 give argmin slot 1, the first of the two
tied minimal slots. -/
theorem c7_witness :
    minElemIdx bdFin.callback_error_evaluation_ stFin.pop_errors_ = 1 ∧
    (getBestWork bdFin stFin).best_candidate_.1 = 2 ∧
    (∀ k : Fin 3, bdFin.callback_error_evaluation_ (stFin.pop_errors_ k)
      (stFin.pop_errors_
        (minElemIdx bdFin.callback_error_evaluation_ stFin.pop_errors_)) = false) := by
  refine ⟨by decide, by decide, ?_⟩
  exact (c7_compute_local_best bdFin stFin (by decide) (by decide)
    (by decide)).2.2.2.2.1

/-! ### Coordinator: global best, migration, determinism -/

/-- Claim C1 evaluation: on a maximizing predicate the cross-solver
reduction of getBestCandidate returns the numerically smallest error
even though another solver holds a local best the ordering predicate
judges strictly better — the reduction uses the builtin order, not the
predicate. -/
theorem c1_predicate_ignored :
    (getBestCandidate bdMax stC1).1.1 = 1 ∧
    ((getBestCandidate bdMax stC1).2.solvers_ 1).best_candidate_.1 = 2 ∧
    bdMax.callback_error_evaluation_ 2 1 = true := by
  exact ⟨by decide, by decide, by decide⟩

/-- Claim C2 counterexample: a migration run in which no phi draw
succeeds produces an empty transfer log, so not every solver is waited
on during migration — the wait happens only inside the probabilistic
branch. -/
theorem c2_counterexample :
    (migration bd9 0 stD3).2 = [] ∧
    ¬ (∀ i : Fin 2, i ∈ (migration bd9 0 stD3).2.map (fun e => e.1)) := by
  exact ⟨by decide, by decide⟩

/-- The transfer log of the migration loop records precisely the solvers
whose phi draw succeeded, in order. -/
theorem migrationLoop_log {P E : Type} {D n T : ℕ} [NeZero T] (phi : ℚ) :
    ∀ (L : List (Fin T)) (st : DEState P E D n T),
      (migrationLoop phi L st).2.map (fun e => e.1) =
        waitedSpec st.random_phi_ phi st.phi_ix L := by
  intro L
  induction L with
  | nil => intro st; rfl
  | cons i L ih =>
    intro st
    simp only [migrationLoop, waitedSpec]
    by_cases hp : st.random_phi_ st.phi_ix < phi
    · rw [if_pos hp, if_pos hp]
      simp only [List.map_cons]
      congr 1
      exact ih _
    · rw [if_neg hp, if_neg hp]
      exact ih _

/-- Every logged transfer targets the ring successor of the waited
solver. -/
theorem migrationLoop_dest {P E : Type} {D n T : ℕ} [NeZero T] (phi : ℚ) :
    ∀ (L : List (Fin T)) (st : DEState P E D n T) (e : Fin T × Fin T × Fin n),
      e ∈ (migrationLoop phi L st).2 → e.2.1 = ringSucc e.1 := by
  intro L
  induction L with
  | nil =>
    intro st e he
    cases he
  | cons i L ih =>
    intro st e he
    simp only [migrationLoop] at he
    by_cases hp : st.random_phi_ st.phi_ix < phi
    · rw [if_pos hp] at he
      rcases List.mem_cons.mp he with rfl | he2
      · rfl
      · exact ih _ e he2
    · rw [if_neg hp] at he
      exact ih _ e he

/-- Membership in the waited-solver specification over a sorted gap-free
suffix of the index range: solver i is waited on exactly when the draw
at its position succeeds. -/
theorem waitedSpec_mem {T : ℕ} (phiS : ℕ → ℚ) (phi : ℚ) :
    ∀ (L : List (Fin T)) (t : ℕ),
      (∀ k : Fin T, k ∈ L ↔ t ≤ k.val) →
      List.Pairwise (fun a b : Fin T => a.val < b.val) L →
      ∀ (ix : ℕ) (i : Fin T),
        (i ∈ waitedSpec phiS phi ix L ↔
          (t ≤ i.val ∧ phiS (ix + (i.val - t)) < phi)) := by
  intro L
  induction L with
  | nil =>
    intro t hmem _ ix i
    simp only [waitedSpec, List.not_mem_nil, false_iff]
    rintro ⟨hti, -⟩
    exact (List.not_mem_nil i) ((hmem i).mpr hti)
  | cons j L ih =>
    intro t hmem hpw ix i
    have hjt : t ≤ j.val := (hmem j).mp (List.mem_cons_self j L)
    have hjval : j.val = t := by
      by_contra hne
      have htn : t < T := by have := j.isLt; omega
      have hv : (⟨t, htn⟩ : Fin T) ∈ j :: L := (hmem _).mpr (le_refl t)
      rcases List.mem_cons.mp hv with he | hmem2
      · have : t = j.val := congrArg Fin.val he
        omega
      · have := (List.pairwise_cons.mp hpw).1 _ hmem2
        simp only [] at this
        omega
    have hmem2 : ∀ k : Fin T, k ∈ L ↔ t + 1 ≤ k.val := by
      intro k
      constructor
      · intro hk
        have h2 := (List.pairwise_cons.mp hpw).1 k hk
        omega
      · intro hk
        have h1 : k ∈ j :: L := (hmem k).mpr (by omega)
        rcases List.mem_cons.mp h1 with rfl | hk2
        · omega
        · exact hk2
    have hpw2 := (List.pairwise_cons.mp hpw).2
    simp only [waitedSpec]
    by_cases hp : phiS ix < phi
    · rw [if_pos hp]
      constructor
      · intro hmem3
        rcases List.mem_cons.mp hmem3 with rfl | h2
        · refine ⟨by omega, ?_⟩
          rw [(by omega : i.val - t = 0), Nat.add_zero]
          exact hp
        · have h3 := (ih (t + 1) hmem2 hpw2 (ix + 1) i).mp h2
          refine ⟨by omega, ?_⟩
          rw [(by omega : ix + (i.val - t) = ix + 1 + (i.val - (t + 1)))]
          exact h3.2
      · rintro ⟨hti, hdraw⟩
        by_cases hij : i = j
        · subst hij
          exact List.mem_cons_self i _
        · have hival : t + 1 ≤ i.val := by
            have hne : i.val ≠ t := fun he => hij (Fin.ext (by omega))
            omega
          apply List.mem_cons_of_mem
          apply (ih (t + 1) hmem2 hpw2 (ix + 1) i).mpr
          refine ⟨hival, ?_⟩
          rw [(by omega : ix + 1 + (i.val - (t + 1)) = ix + (i.val - t))]
          exact hdraw
    · rw [if_neg hp]
      constructor
      · intro h2
        have h3 := (ih (t + 1) hmem2 hpw2 (ix + 1) i).mp h2
        refine ⟨by omega, ?_⟩
        rw [(by omega : ix + (i.val - t) = ix + 1 + (i.val - (t + 1)))]
        exact h3.2
      · rintro ⟨hti, hdraw⟩
        by_cases hit : i.val = t
        · rw [(by omega : i.val - t = 0), Nat.add_zero] at hdraw
          exact absurd hdraw hp
        · apply (ih (t + 1) hmem2 hpw2 (ix + 1) i).mpr
          refine ⟨by omega, ?_⟩
          rw [(by omega : ix + 1 + (i.val - (t + 1)) = ix + (i.val - t))]
          exact hdraw

/-- Claim C2, amended: migration evaluates one fresh phi draw per solver
in strict index order; a solver is waited on exactly when its own draw
is strictly below the migration probability (so not every solver is
waited on), and every performed transfer copies into the ring successor
of the waited solver. -/
theorem c2_migration_amended {P E : Type} {D n T : ℕ} [NeZero n] [NeZero T]
    (bd : BaseDE P E D) (phi : ℚ) (st : DEState P E D n T) :
    (migration bd phi st).2.map (fun e => e.1) =
      waitedSpec st.random_phi_ phi st.phi_ix (List.finRange T) ∧
    (∀ i : Fin T, i ∈ (migration bd phi st).2.map (fun e => e.1) ↔
      st.random_phi_ (st.phi_ix + i.val) < phi) ∧
    (∀ e ∈ (migration bd phi st).2, e.2.1 = ringSucc e.1) := by
  have hfr_mem : ∀ k : Fin T, k ∈ List.finRange T ↔ 0 ≤ k.val := by
    intro k
    simp [List.mem_finRange]
  have hfr_pw : List.Pairwise (fun a b : Fin T => a.val < b.val)
      (List.finRange T) :=
    (List.pairwise_lt_finRange T).imp (fun h => h)
  have hlog : (migration bd phi st).2.map (fun e => e.1) =
      waitedSpec st.random_phi_ phi st.phi_ix (List.finRange T) :=
    migrationLoop_log phi (List.finRange T) _
  refine ⟨hlog, ?_, ?_⟩
  · intro i
    rw [hlog]
    have h := waitedSpec_mem st.random_phi_ phi (List.finRange T) 0 hfr_mem
      hfr_pw st.phi_ix i
    simpa using h
  · intro e he
    exact migrationLoop_dest phi (List.finRange T) _ e he

/-- Witness for the amended C2 on the concrete two-solver state with
migration probability zero: the waited list matches the specification
and solver 0 is waited on exactly when its draw succeeds. -/
theorem c2_witness :
    ((migration bd9 0 stD3).2.map (fun e => e.1) =
      waitedSpec stD3.random_phi_ 0 stD3.phi_ix (List.finRange 2)) ∧
    ((0 : Fin 2) ∈ (migration bd9 0 stD3).2.map (fun e => e.1) ↔
      stD3.random_phi_ (stD3.phi_ix + (0 : Fin 2).val) < 0) :=
  ⟨(c2_migration_amended bd9 0 stD3).1,
    (c2_migration_amended bd9 0 stD3).2.1 0⟩

/-- Claim C10: the frame effect of one migration write. Exactly the slot
mi of the ring-successor subpopulation is overwritten with the source
solver local-best candidate; every other slot, the destination error
array (including the error recorded for the overwritten slot) and every
other solver state are unchanged, and with at least two solvers the
destination differs from the source. -/
theorem c10_migration_frame {P E : Type} {D n T : ℕ} [NeZero T]
    (st : DEState P E D n T) (i : Fin T) (mi : Fin n) (hT2 : 2 ≤ T) :
    ((migrationWrite st i mi).solvers_ (ringSucc i)).population_ mi =
      (st.solvers_ i).best_candidate_.2 ∧
    (∀ r : Fin n, r ≠ mi →
      ((migrationWrite st i mi).solvers_ (ringSucc i)).population_ r =
        (st.solvers_ (ringSucc i)).population_ r) ∧
    ((migrationWrite st i mi).solvers_ (ringSucc i)).pop_errors_ =
      (st.solvers_ (ringSucc i)).pop_errors_ ∧
    ((migrationWrite st i mi).solvers_ (ringSucc i)).pop_errors_ mi =
      (st.solvers_ (ringSucc i)).pop_errors_ mi ∧
    (∀ k : Fin T, k ≠ ringSucc i →
      (migrationWrite st i mi).solvers_ k = st.solvers_ k) ∧
    ringSucc i ≠ i := by
  have hsucc : ringSucc i ≠ i := by
    intro he
    have hv : (i.val + 1) % T = i.val := congrArg Fin.val he
    rcases Nat.lt_or_ge (i.val + 1) T with hlt | hge
    · rw [Nat.mod_eq_of_lt hlt] at hv
      omega
    · have hTe : i.val + 1 = T := by have := i.isLt; omega
      rw [hTe, Nat.mod_self] at hv
      have := i.isLt
      omega
  refine ⟨?_, ?_, ?_, ?_, ?_, hsucc⟩
  · simp only [migrationWrite, Function.update_same]
  · intro r hr
    simp only [migrationWrite, Function.update_same]
    exact Function.update_noteq hr _ _
  · simp only [migrationWrite, Function.update_same]
  · simp only [migrationWrite, Function.update_same]
  · intro k hk
    simp only [migrationWrite]
    exact Function.update_noteq hk _ _

/-- Witness for C10 on the concrete two-solver coordinator state. -/
theorem c10_witness :
    ((migrationWrite stD3 0 0).solvers_ (ringSucc 0)).population_ 0 =
      (stD3.solvers_ 0).best_candidate_.2 ∧
    ringSucc (0 : Fin 2) ≠ 0 := by
  have h := c10_migration_frame stD3 0 0 (by omega)
  exact ⟨h.1, h.2.2.2.2.2⟩

/-- Unfolding the fan-out at a head command that fails. -/
theorem applyAllOpt_cons_none {T : ℕ} {S : Type} (f : Fin T → S → Option S)
    (i : Fin T) (L : List (Fin T)) (g : Fin T → S) (h : f i (g i) = none) :
    applyAllOpt f (i :: L) g = none := by
  simp [applyAllOpt, h]

/-- Unfolding the fan-out at a head command that succeeds. -/
theorem applyAllOpt_cons_some {T : ℕ} {S : Type} (f : Fin T → S → Option S)
    (i : Fin T) (L : List (Fin T)) (g : Fin T → S) (s : S)
    (h : f i (g i) = some s) :
    applyAllOpt f (i :: L) g = applyAllOpt f L (Function.update g i s) := by
  simp [applyAllOpt, h]

/-- Fan-out of per-solver commands is invariant under permutation of
the execution order, because each command reads and writes only its own
solver state. -/
theorem applyAllOpt_perm {T : ℕ} {S : Type} (f : Fin T → S → Option S)
    {L1 L2 : List (Fin T)} (h : L1.Perm L2) :
    ∀ g : Fin T → S, applyAllOpt f L1 g = applyAllOpt f L2 g := by
  induction h with
  | nil => intro g; rfl
  | cons x _ ih =>
    intro g
    cases hx : f x (g x) with
    | none =>
      rw [applyAllOpt_cons_none f x _ g hx, applyAllOpt_cons_none f x _ g hx]
    | some s =>
      rw [applyAllOpt_cons_some f x _ g s hx,
        applyAllOpt_cons_some f x _ g s hx]
      exact ih _
  | swap x y l =>
    intro g
    by_cases hxy : x = y
    · subst hxy; rfl
    · have hyx : y ≠ x := Ne.symm hxy
      cases hx : f x (g x) with
      | none =>
        cases hy : f y (g y) with
        | none =>
          rw [applyAllOpt_cons_none f y _ g hy,
            applyAllOpt_cons_none f x _ g hx]
        | some t =>
          rw [applyAllOpt_cons_some f y _ g t hy,
            applyAllOpt_cons_none f x _ g hx,
            applyAllOpt_cons_none f x l (Function.update g y t)
              (by rw [Function.update_noteq hxy]; exact hx)]
      | some s =>
        cases hy : f y (g y) with
        | none =>
          rw [applyAllOpt_cons_none f y _ g hy,
            applyAllOpt_cons_some f x _ g s hx,
            applyAllOpt_cons_none f y l (Function.update g x s)
              (by rw [Function.update_noteq hyx]; exact hy)]
        | some t =>
          rw [applyAllOpt_cons_some f y _ g t hy,
            applyAllOpt_cons_some f x _ g s hx,
            applyAllOpt_cons_some f x l (Function.update g y t) s
              (by rw [Function.update_noteq hxy]; exact hx),
            applyAllOpt_cons_some f y l (Function.update g x s) t
              (by rw [Function.update_noteq hyx]; exact hy),
            Function.update_comm hyx]
  | trans _ _ ih1 ih2 =>
    intro g
    rw [ih1 g, ih2 g]

/-- Claim C3: determinism. Two runs of solveNGenerations over the same
initial state (all random streams fixed to the same seeds, identical
callbacks) produce identical results for any pair of worker schedules,
in particular bit-identical final subpopulations at every slot of every
solver. -/
theorem c3_determinism {P E : Type} [Ring P] {D n T : ℕ} [NeZero D]
    [NeZero n] [NeZero T] (bd : BaseDE P E D) (phi : ℚ) (fuel : ℕ)
    (sch1 sch2 : ℕ → List (Fin T) × List (Fin T))
    (hperm : ∀ g, ((sch1 g).1.Perm ((sch2 g).1)) ∧
      ((sch1 g).2.Perm ((sch2 g).2))) :
    ∀ (N : ℕ) (st : DEState P E D n T),
      solveNGenerationsSched bd phi fuel sch1 N st =
        solveNGenerationsSched bd phi fuel sch2 N st := by
  intro N
  induction N with
  | zero => intro st; rfl
  | succ g ih =>
    intro st
    simp only [solveNGenerationsSched]
    have h1 : solveOneGenerationSched bd phi fuel (sch1 g).1 (sch1 g).2 st =
        solveOneGenerationSched bd phi fuel (sch2 g).1 (sch2 g).2 st := by
      simp only [solveOneGenerationSched]
      rw [applyAllOpt_perm _ (hperm g).1 st.solvers_]
      exact congrArg _ (funext fun sv => by
        rw [applyAllOpt_perm _ (hperm g).2 sv])
    rw [h1]
    cases solveOneGenerationSched bd phi fuel (sch2 g).1 (sch2 g).2 st with
    | none => rfl
    | some st1 => exact ih st1

/-- Witness for C3: two opposite schedules on the concrete two-solver
state yield the same result of one generation. -/
theorem c3_witness :
    solveNGenerationsSched bd9 0 4 (fun _ => ([0, 1], [0, 1])) 1 stD3 =
      solveNGenerationsSched bd9 0 4 (fun _ => ([1, 0], [1, 0])) 1 stD3 :=
  c3_determinism bd9 0 4 _ _
    (fun _ => ⟨List.Perm.swap 1 0 [], List.Perm.swap 1 0 []⟩) 1 stD3
